import Mathlib

/-!
A shallow embedding of the `wfc_wa` Wave Function Collapse engine
(`src/lib.rs`) in Lean 4, together with theorems checking the
natural-language specification against it.

Modelling conventions:
* Rust `u8`/`u32`/`u128`/`usize` values are `Nat`; reductions modulo the
  machine width (`% 2 ^ 32`, `% 2 ^ 64`, `% 256`) are written explicitly at
  every place where the Rust arithmetic can wrap or truncate.
* The pseudo-random source (`SmallRng`) and the `f32` cumulative-weight draw
  are abstracted into oracle parameters: every behaviour of the Rust code is
  one choice of oracle value, so invariants proved for all oracle values
  cover all runs.
* A Rust panic/abort is modelled as `Option.none`; the unbounded
  `propagate` work-stack loop is given explicit fuel, `none` meaning the
  call has not returned yet.
* `HashMap` iteration order (used when the deduplicated tile list is built)
  is unspecified in Rust; the model fixes first-insertion order, which is
  one of its admissible behaviours, and no claim below depends on the order.
-/

/-- `Color`: struct with three `u8` channels, exact channel-wise equality. -/
structure Color where
  r : Nat
  g : Nat
  b : Nat
deriving DecidableEq, Repr

/-- `type Tile = Vec<Vec<Color>>`. -/
def Tile := List (List Color)

instance : DecidableEq Tile := inferInstanceAs (DecidableEq (List (List Color)))

/-- Indexing `tile[r][c]`; out-of-range reads (which would panic in Rust)
return an arbitrary default, and every theorem that depends on a read keeps
it in range. -/
def colorAt (t : Tile) (r c : Nat) : Color :=
  (t.getD r []).getD c ⟨0, 0, 0⟩

/-- Binary-digit recursion with structural fuel (`fuel ≥ n` makes it exact);
kept structural so the kernel can evaluate it. -/
def popCountFuel : Nat → Nat → Nat
  | 0, _ => 0
  | fuel + 1, n => if n = 0 then 0 else n % 2 + popCountFuel fuel (n / 2)

/-- Population count of a `Nat`, modelling `u128::count_ones`. -/
def popCount (n : Nat) : Nat := popCountFuel n n

/-- The four direction offsets `[(-1,0),(1,0),(0,-1),(0,1)]` in source order. -/
def dirs : List (Int × Int) := [(-1, 0), (1, 0), (0, -1), (0, 1)]

/-- `can_overlap`: tiles `t1` and `t2` are compatible at offset `(dr, dc)`
iff every pair of overlapping cells agrees; cells without a counterpart
impose no constraint (`lib.rs:342-356`). -/
def can_overlap (t1 t2 : Tile) (dr dc : Int) : Bool :=
  let size : Int := (List.length t1 : Nat)
  (List.range t1.length).all fun r1 =>
    (List.range t1.length).all fun c1 =>
      let r2 : Int := (r1 : Int) + dr
      let c2 : Int := (c1 : Int) + dc
      if 0 ≤ r2 ∧ r2 < size ∧ 0 ≤ c2 ∧ c2 < size then
        decide (colorAt t1 r1 c1 = colorAt t2 r2.toNat c2.toNat)
      else
        true

/-- `rotate_tile`: `new_tile[c][size-1-r] = tile[r][c]`, i.e. the entry of
the rotated tile at `(i, j)` is `tile[size-1-j][i]` (`lib.rs:317-326`). -/
def rotate_tile (t : Tile) : Tile :=
  let size := List.length t
  (List.range size).map fun i =>
    (List.range size).map fun j => colorAt t (size - 1 - j) i

/-- The `tile_size × tile_size` window of `input` whose top-left corner is
`(r, c)` (the inner copy loop of `extract_tiles`, `lib.rs:291-298`). -/
def windowAt (input : List (List Color)) (r c ts : Nat) : Tile :=
  (List.range ts).map fun tr =>
    (List.range ts).map fun tc => colorAt input (r + tr) (c + tc)

/-- `*tile_counts.entry(tile).or_insert(0) += 1` on an association list
keeping first-insertion order. -/
def bumpCount (m : List (Tile × Nat)) (t : Tile) : List (Tile × Nat) :=
  match m with
  | [] => [(t, 1)]
  | (u, n) :: rest =>
      if u = t then (u, n + 1) :: rest else (u, n) :: bumpCount rest t

/-- The `for _ in 0..4 { count += 1; tile = rotate_tile(&tile) }` loop:
register a window and its three successive rotations (`lib.rs:300-303`). -/
def registerRotations (m : List (Tile × Nat)) (t : Tile) : List (Tile × Nat) :=
  bumpCount (bumpCount (bumpCount (bumpCount m t) (rotate_tile t))
      (rotate_tile (rotate_tile t)))
    (rotate_tile (rotate_tile (rotate_tile t)))

/-- `extract_tiles` (`lib.rs:284-315`), with the Rust panics made explicit:
`input[0]` on an empty input aborts, and when `rows < tile_size` or
`cols < tile_size` the unsigned subtractions `rows - tile_size` /
`cols - tile_size` underflow so the window loops abort on an out-of-range
index; both aborts are `none`.  A row shorter than `input[0]` is also read
out of range (when `tile_size ≥ 1`) and aborts. -/
def extract_tiles (input : List (List Color)) (tile_size : Nat) :
    Option (List Tile × List Nat) :=
  match input with
  | [] => none
  | row0 :: _ =>
      let rows := input.length
      let cols := row0.length
      if rows < tile_size ∨ cols < tile_size then none
      else if tile_size ≠ 0 ∧ input.any (fun row => row.length < cols) then none
      else
        let m := (List.range (rows - tile_size + 1)).foldl
          (fun m r =>
            (List.range (cols - tile_size + 1)).foldl
              (fun m c => registerRotations m (windowAt input r c tile_size)) m)
          []
        some (m.map Prod.fst, m.map Prod.snd)

/-- One per-tile adjacency bitmask: bit `j` is set iff
`can_overlap(tiles[i], tiles[j], dr, dc)` (`lib.rs:330-338`). -/
def adjMask (tiles : List Tile) (i : Nat) (d : Int × Int) : Nat :=
  (List.range tiles.length).foldl
    (fun acc j =>
      if can_overlap (tiles.getD i []) (tiles.getD j []) d.1 d.2 then
        acc ||| (1 <<< j)
      else acc)
    0

/-- `compute_adjacencies` (`lib.rs:328-340`): for each tile a finite map
from the four offsets to a `u128` bitmask; `HashMap::get(..).unwrap_or(0)`
makes it a total function that is `0` off the four offsets. -/
def compute_adjacencies (tiles : List Tile) : List ((Int × Int) → Nat) :=
  (List.range tiles.length).map fun i d =>
    if d ∈ dirs then adjMask tiles i d else 0

/-- `usize::MAX`, the initial `min_entropy` in `find_lowest_entropy`. -/
def usizeMax : Nat := 2 ^ 64 - 1

/-- The engine state (`struct WfcEngine`, `lib.rs:18-34`).  `weights` keeps
the raw occurrence counts (their `f32` cast is only consumed by the
oracle-abstracted `observe`). -/
structure WfcEngine where
  output_size : Nat
  tile_size : Nat
  tiles : List Tile
  weights : List Nat
  adjacencies : List ((Int × Int) → Nat)
  matrix : List Nat
  entropy_map : List Nat
  all_flags : Nat
  stack : List (Nat × Nat)
  last_contradiction_pos : Option (Nat × Nat)
  local_reset_size : Nat
  local_reset_attempts : Nat

namespace WfcEngine

/-- The candidate accumulation loop of `find_lowest_entropy`
(`lib.rs:140-155`): running minimum (starting at `usize::MAX`) and the list
of indices attaining it. -/
def findCandidates (s : WfcEngine) : Nat × List Nat :=
  (List.range s.matrix.length).foldl
    (fun acc i =>
      let e := s.entropy_map.getD i 0
      if 1 < e then
        if e < acc.1 then (e, [i])
        else if e = acc.1 then (acc.1, acc.2 ++ [i])
        else acc
      else acc)
    (usizeMax, [])

/-- `find_lowest_entropy` (`lib.rs:140-162`); the uniform draw among the
tied candidates is an oracle index `sel`, reduced mod the candidate count so
that every admissible draw is one oracle value. -/
def find_lowest_entropy (s : WfcEngine) (sel : Nat) : Option Nat :=
  let cands := (findCandidates s).2
  if cands.isEmpty then none else some (cands.getD (sel % cands.length) 0)

/-- `observe` (`lib.rs:164-187`).  The `f32` cumulative-weight draw always
returns one of the set bits of `mask` (an early return or the final
fallback), or `0` when there is none; the RNG and the float arithmetic are
abstracted into the oracle index `k` choosing among the options. -/
def observe (s : WfcEngine) (mask : Nat) (k : Nat) : Nat :=
  let options := (List.range s.tiles.length).filter fun i => mask &&& (1 <<< i) != 0
  if options.isEmpty then 0
  else options.getD (k % options.length) 0

/-- The inner neighbour loop of `propagate` (`lib.rs:193-225`) over a list
of remaining offsets; `(false, s)` is the early `return false` on an empty
updated mask, with the state exactly as mutated so far. -/
def propagateDirs (s : WfcEngine) (currentMask : Nat) (r c : Nat) :
    List (Int × Int) → Bool × WfcEngine
  | [] => (true, s)
  | (dr, dc) :: rest =>
      let nr : Int := (r : Int) + dr
      let nc : Int := (c : Int) + dc
      if 0 ≤ nr ∧ nr < (s.output_size : Int) ∧ 0 ≤ nc ∧ nc < (s.output_size : Int) then
        let nrn := nr.toNat
        let ncn := nc.toNat
        let nIdx := nrn * s.output_size + ncn
        let nMask := s.matrix.getD nIdx 0
        if s.entropy_map.getD nIdx 0 ≤ 1 then
          propagateDirs s currentMask r c rest
        else
          let allowed := (List.range s.tiles.length).foldl
            (fun acc i =>
              if currentMask &&& (1 <<< i) != 0 then
                acc ||| (s.adjacencies.getD i (fun _ => 0)) (dr, dc)
              else acc)
            0
          let updated := nMask &&& allowed
          if updated = 0 then (false, s)
          else if updated ≠ nMask then
            propagateDirs
              { s with matrix := s.matrix.set nIdx updated,
                       entropy_map := s.entropy_map.set nIdx (popCount updated),
                       stack := (nrn, ncn) :: s.stack }
              currentMask r c rest
          else propagateDirs s currentMask r c rest
      else propagateDirs s currentMask r c rest

/-- `propagate` (`lib.rs:189-228`): pop the work stack until empty
(`some (true, _)`), a contradiction aborts early (`some (false, _)`); the
loop is fuelled, `none` meaning the call has not returned within `fuel`
iterations. -/
def propagate : Nat → WfcEngine → Option (Bool × WfcEngine)
  | 0, _ => none
  | fuel + 1, s =>
      match s.stack with
      | [] => some (true, s)
      | (r, c) :: rest =>
          let s1 := { s with stack := rest }
          let currentMask := s1.matrix.getD (r * s1.output_size + c) 0
          match propagateDirs s1 currentMask r c dirs with
          | (false, s2) => some (false, s2)
          | (true, s2) => propagate fuel s2

/-- `reset` (`lib.rs:230-238`): every cell back to `all_flags` with entropy
`tiles.len()`, stack cleared, recovery counters re-initialised. -/
def reset (s : WfcEngine) : WfcEngine :=
  { s with matrix := s.matrix.map fun _ => s.all_flags,
           entropy_map := s.entropy_map.map fun _ => s.tiles.length,
           stack := [],
           local_reset_size := 8,
           local_reset_attempts := 0 }

/-- One in-bounds write of the `reset_local` loops (`lib.rs:125-129`). -/
def resetCell (s : WfcEngine) (nr nc : Int) : WfcEngine :=
  if 0 ≤ nr ∧ nr < (s.output_size : Int) ∧ 0 ≤ nc ∧ nc < (s.output_size : Int) then
    let idx := nr.toNat * s.output_size + nc.toNat
    { s with matrix := s.matrix.set idx s.all_flags,
             entropy_map := s.entropy_map.set idx s.tiles.length }
  else s

/-- The half-open integer range `lo..hi` of the `reset_local` loops. -/
def intRangeList (lo hi : Int) : List Int :=
  (List.range (hi - lo).toNat).map fun k : Nat => lo + (k : Int)

/-- `reset_local` (`lib.rs:115-138`): restore every in-bounds cell with
offsets in `-half..half` of the centre to all-possible, then clear the whole
stack. -/
def reset_local (s : WfcEngine) (row col size : Nat) : WfcEngine :=
  let half : Int := ((size / 2 : Nat) : Int)
  let s' := (intRangeList (-half) half).foldl
    (fun s dr =>
      (intRangeList (-half) half).foldl
        (fun s dc => resetCell s ((row : Int) + dr) ((col : Int) + dc)) s)
    s
  { s' with stack := [] }

/-- `handle_contradiction` (`lib.rs:99-113`). -/
def handle_contradiction (s : WfcEngine) (row col : Nat) : WfcEngine :=
  let s1 := { s with local_reset_attempts := s.local_reset_attempts + 1 }
  let s2 :=
    if 8 < s1.local_reset_attempts then
      { s1 with local_reset_attempts := 0,
                local_reset_size := s1.local_reset_size + 4 }
    else s1
  if s2.output_size < s2.local_reset_size then reset s2
  else reset_local s2 row col s2.local_reset_size

/-- `step` (`lib.rs:76-97`): `sel` and `obsK` are the two oracle draws of
this call, `fuel` bounds the propagation loop (`none` = not yet returned). -/
def step (s : WfcEngine) (sel obsK fuel : Nat) : Option (Bool × WfcEngine) :=
  match find_lowest_entropy s sel with
  | none => some (false, s)
  | some idx =>
      let mask := s.matrix.getD idx 0
      let chosen := observe s mask obsK
      let s1 := { s with matrix := s.matrix.set idx (1 <<< chosen),
                         entropy_map := s.entropy_map.set idx 1 }
      let row := idx / s1.output_size
      let col := idx % s1.output_size
      let s2 := { s1 with stack := (row, col) :: s1.stack }
      match propagate fuel s2 with
      | none => none
      | (some (true, s3)) => some (true, s3)
      | (some (false, s3)) => some (true, handle_contradiction s3 row col)

/-- `get_collapsed_count` (`lib.rs:240-242`). -/
def get_collapsed_count (s : WfcEngine) : Nat :=
  (s.entropy_map.filter fun e => e == 1).length

/-- `get_display_color` (`lib.rs:256-281`): `u32` accumulators (reductions
mod `2 ^ 32` explicit), integer division by the count, the quotient
truncated to `u8` (`% 256`); magenta when no bit of `mask` is set. -/
def get_display_color (s : WfcEngine) (mask : Nat) : Color :=
  let acc := (List.range s.tiles.length).foldl
    (fun (acc : Nat × Nat × Nat × Nat) i =>
      if mask &&& (1 <<< i) != 0 then
        let c := colorAt (s.tiles.getD i []) 0 0
        ((acc.1 + c.r) % 2 ^ 32, (acc.2.1 + c.g) % 2 ^ 32,
          (acc.2.2.1 + c.b) % 2 ^ 32, (acc.2.2.2 + 1) % 2 ^ 32)
      else acc)
    (0, 0, 0, 0)
  if 0 < acc.2.2.2 then
    ⟨acc.1 / acc.2.2.2 % 256, acc.2.1 / acc.2.2.2 % 256, acc.2.2.1 / acc.2.2.2 % 256⟩
  else ⟨255, 0, 255⟩

/-- `get_image_data` (`lib.rs:244-254`): four bytes pushed per cell in
row-major order. -/
def get_image_data (s : WfcEngine) : List Nat :=
  s.matrix.foldl
    (fun data mask =>
      let color := get_display_color s mask
      data ++ [color.r, color.g, color.b, 255])
    []

/-- `WfcEngine::new` (`lib.rs:39-74`): outer `none` is a Rust abort inside
`extract_tiles`, `Except.error` the caller-visible size-limit failure. -/
def new (input : List (List Color)) (output_size tile_size : Nat) :
    Option (Except String WfcEngine) :=
  match extract_tiles input tile_size with
  | none => none
  | some (tiles, weights) =>
      if 128 < tiles.length then
        some (Except.error "Too many unique patterns. Max 128.")
      else
        let all_flags :=
          if tiles.length = 128 then 2 ^ 128 - 1 else 2 ^ tiles.length - 1
        some (Except.ok
          { output_size := output_size
            tile_size := tile_size
            tiles := tiles
            weights := weights
            adjacencies := compute_adjacencies tiles
            matrix := List.replicate (output_size * output_size) all_flags
            entropy_map := List.replicate (output_size * output_size) tiles.length
            all_flags := all_flags
            stack := []
            last_contradiction_pos := none
            local_reset_size := 8
            local_reset_attempts := 0 })

end WfcEngine

/-! ### Generic helper lemmas -/

theorem popCountFuel_of_le (f1 : Nat) : ∀ f2 n : Nat, n ≤ f1 → n ≤ f2 →
    popCountFuel f1 n = popCountFuel f2 n := by
  induction f1 with
  | zero =>
      intro f2 n h1 _
      interval_cases n
      cases f2 <;> simp [popCountFuel]
  | succ f ih =>
      intro f2 n h1 h2
      by_cases hn : n = 0
      · subst hn; cases f2 <;> simp [popCountFuel]
      · obtain ⟨g, rfl⟩ : ∃ g, f2 = g + 1 := ⟨f2 - 1, by omega⟩
        simp only [popCountFuel, if_neg hn]
        have hd : n / 2 < n := Nat.div_lt_self (by omega) (by omega)
        rw [ih g (n / 2) (by omega) (by omega)]

theorem popCount_eq (n : Nat) :
    popCount n = if n = 0 then 0 else n % 2 + popCount (n / 2) := by
  by_cases hn : n = 0
  · subst hn; simp [popCount, popCountFuel]
  · rw [if_neg hn]
    obtain ⟨g, rfl⟩ : ∃ g, n = g + 1 := ⟨n - 1, by omega⟩
    show popCountFuel (g + 1) (g + 1) = _
    simp only [popCountFuel, if_neg hn]
    congr 1
    exact popCountFuel_of_le g ((g + 1) / 2) ((g + 1) / 2) (by omega) (by omega)

theorem popCount_two_pow (k : Nat) : popCount (2 ^ k) = 1 := by
  induction k with
  | zero => simp [popCount, popCountFuel]
  | succ k ih =>
      rw [popCount_eq, if_neg (by positivity)]
      have h2 : 2 ^ (k + 1) = 2 ^ k * 2 := by ring
      rw [h2, Nat.mul_mod_left, Nat.mul_div_cancel _ (by omega)]
      simpa using ih

theorem popCount_zero : popCount 0 = 0 := rfl

theorem getD_set_self (l : List Nat) (i v : Nat) (h : i < l.length) :
    (l.set i v).getD i 0 = v := by
  rw [List.getD_eq_getElem?_getD, List.getElem?_set_self (by omega)]
  rfl

theorem getD_set_ne (l : List Nat) (v : Nat) {i j : Nat} (h : i ≠ j) :
    (l.set i v).getD j 0 = l.getD j 0 := by
  rw [List.getD_eq_getElem?_getD, List.getElem?_set_ne h, ← List.getD_eq_getElem?_getD]

theorem getD_map_const (l : List Nat) (v : Nat) (i : Nat) (h : i < l.length) :
    (l.map fun _ => v).getD i 0 = v := by
  rw [List.getD_eq_getElem?_getD, List.getElem?_map, List.getElem?_eq_getElem h]
  rfl

theorem and_shift_bne (mask i : Nat) :
    (mask &&& (1 <<< i) != 0) = mask.testBit i := by
  have h1 : (1 : Nat) <<< i = 2 ^ i := by rw [Nat.shiftLeft_eq, one_mul]
  rw [h1]
  have h2 : (2 : Nat) ^ i ≠ 0 := by positivity
  cases h : mask.testBit i <;> simp [Nat.and_two_pow, h, h2]

theorem foldl_preserves {α β : Type _} (P : α → Prop) (f : α → β → α)
    (h : ∀ a b, P a → P (f a b)) :
    ∀ (l : List β) (a : α), P a → P (l.foldl f a) := by
  intro l
  induction l with
  | nil => intro a ha; simpa using ha
  | cons x xs ih => intro a ha; simpa using ih (f a x) (h a x ha)

theorem testBit_foldl_or (p : Nat → Bool) :
    ∀ (l : List Nat) (acc k : Nat),
      (l.foldl (fun a j => if p j then a ||| (1 <<< j) else a) acc).testBit k
        = (acc.testBit k || (decide (k ∈ l) && p k)) := by
  intro l
  induction l with
  | nil => intro acc k; simp
  | cons x xs ih =>
      intro acc k
      simp only [List.foldl_cons]
      by_cases hpx : p x = true
      · rw [if_pos hpx, ih]
        have h1 : (1 : Nat) <<< x = 2 ^ x := by rw [Nat.shiftLeft_eq, one_mul]
        by_cases hkx : k = x
        · subst hkx
          simp [h1, Nat.testBit_or, Nat.testBit_two_pow, hpx]
        · simp [h1, Nat.testBit_or, Nat.testBit_two_pow, hkx,
            Ne.symm hkx, List.mem_cons]
      · rw [if_neg hpx, ih]
        by_cases hkx : k = x
        · subst hkx
          simp [List.mem_cons, hpx]
        · simp [List.mem_cons, hkx]

/-! ### The degenerate checkerboard scenario (claim C1) -/

/-- Colour `A` of the checkerboard scenario. -/
def colorA : Color := ⟨255, 0, 0⟩

/-- Colour `B` of the checkerboard scenario. -/
def colorB : Color := ⟨0, 0, 255⟩

/-- The 2×2 checkerboard input `A,B / B,A`. -/
def chkInput : List (List Color) := [[colorA, colorB], [colorB, colorA]]

/-- The 1×1 tile holding only colour `A`. -/
def chkTileA : Tile := [[colorA]]

/-- The 1×1 tile holding only colour `B`. -/
def chkTileB : Tile := [[colorB]]

/-- C1, counterexample: on the checkerboard input with `tile_size = 1` the
extracted weights are `8` each (each colour occurs in 2 windows and each
window registers its 4 rotations, all equal for a 1×1 tile), not `4`; and
`can_overlap` on 1×1 tiles shifted by a unit offset has no overlapping cell,
so tile `A` IS compatible with tile `A` in every direction. -/
theorem wfc_C1_counterexample :
    extract_tiles chkInput 1 = some ([chkTileA, chkTileB], [8, 8]) ∧
    (∀ d ∈ dirs, can_overlap chkTileA chkTileA d.1 d.2 = true) := by
  decide

/-- C1, amended: extraction produces exactly 2 unique tiles, each with
weight `8`, and the adjacency computation marks every tile compatible with
every tile (`A` with `B`, `B` with `A`, and also `A` with `A` and `B` with
`B`) in all 4 directions: every adjacency bitmask is `3` (both bits set). -/
theorem wfc_C1_amended :
    extract_tiles chkInput 1 = some ([chkTileA, chkTileB], [8, 8]) ∧
    (compute_adjacencies [chkTileA, chkTileB]).map (fun f => dirs.map f)
      = [[3, 3, 3, 3], [3, 3, 3, 3]] := by
  constructor
  · decide
  · decide

/-! ### Construction: size limit (C6) and extraction precondition (C10) -/

/-- C6: given that extraction returned `(tiles, weights)`, construction
fails with the descriptive size-limit error exactly when more than 128
unique tiles were extracted; with at most 128 tiles it succeeds and the
engine keeps every extracted tile and weight (nothing is dropped). -/
theorem wfc_C6_size_limit (input : List (List Color)) (os ts : Nat)
    (tiles : List Tile) (weights : List Nat)
    (hx : extract_tiles input ts = some (tiles, weights)) :
    (128 < tiles.length →
        WfcEngine.new input os ts
          = some (Except.error "Too many unique patterns. Max 128.")) ∧
    (tiles.length ≤ 128 →
        ∃ e : WfcEngine, WfcEngine.new input os ts = some (Except.ok e) ∧
          e.tiles = tiles ∧ e.weights = weights) := by
  constructor
  · intro h
    simp only [WfcEngine.new, hx, if_pos h]
  · intro h
    simp only [WfcEngine.new, hx, if_neg (by omega : ¬ 128 < tiles.length)]
    exact ⟨_, rfl, rfl, rfl⟩

/-- C6 witness: the checkerboard input yields 2 ≤ 128 tiles, and
construction succeeds keeping both tiles and their weights. -/
theorem wfc_C6_size_limit_witness :
    (128 < ([chkTileA, chkTileB] : List Tile).length →
        WfcEngine.new chkInput 2 1
          = some (Except.error "Too many unique patterns. Max 128.")) ∧
    (([chkTileA, chkTileB] : List Tile).length ≤ 128 →
        ∃ e : WfcEngine, WfcEngine.new chkInput 2 1 = some (Except.ok e) ∧
          e.tiles = [chkTileA, chkTileB] ∧ e.weights = [8, 8]) :=
  wfc_C6_size_limit chkInput 2 1 [chkTileA, chkTileB] [8, 8] (by decide)

/-- C10: for a rectangular input (every row of length `w`), extraction — and
hence construction — completes normally iff the input is non-empty and both
its height and width are at least `tile_size`; otherwise the call aborts
(`none`, a Rust panic from index underflow/out-of-range), it does not return
the descriptive error. -/
theorem wfc_C10_extraction_precondition (input : List (List Color))
    (os ts w : Nat) (hrect : ∀ row ∈ input, row.length = w) :
    ((extract_tiles input ts).isSome ↔
        (input ≠ [] ∧ ts ≤ input.length ∧ ts ≤ w)) ∧
    (WfcEngine.new input os ts = none ↔
        ¬ (input ≠ [] ∧ ts ≤ input.length ∧ ts ≤ w)) := by
  have hext : (extract_tiles input ts).isSome ↔
      (input ≠ [] ∧ ts ≤ input.length ∧ ts ≤ w) := by
    cases input with
    | nil => simp [extract_tiles]
    | cons row0 rest =>
        have hw : row0.length = w := hrect row0 (by simp)
        by_cases h1 : (row0 :: rest).length < ts ∨ row0.length < ts
        · simp only [extract_tiles, if_pos h1]
          simp only [Option.isSome_none, Bool.false_eq_true, false_iff]
          rintro ⟨-, h2, h3⟩
          omega
        · have h2 : ¬ (ts ≠ 0 ∧
              (row0 :: rest).any (fun row => decide (row.length < row0.length))) := by
            rintro ⟨-, hany⟩
            rw [List.any_eq_true] at hany
            obtain ⟨row, hmem, hlt⟩ := hany
            have hr := hrect row hmem
            rw [decide_eq_true_iff] at hlt
            omega
          simp only [extract_tiles, if_neg h1, if_neg h2, Option.isSome_some,
            true_iff]
          refine ⟨by simp, by omega, by omega⟩
  refine ⟨hext, ?_⟩
  cases hx : extract_tiles input ts with
  | none =>
      rw [hx] at hext
      simp only [Option.isSome_none, Bool.false_eq_true, false_iff] at hext
      simp only [WfcEngine.new, hx]
      simpa using hext
  | some p =>
      obtain ⟨tiles, weights⟩ := p
      rw [hx] at hext
      simp only [WfcEngine.new, hx]
      constructor
      · intro hcontra
        by_cases h : 128 < tiles.length
        · rw [if_pos h] at hcontra; exact absurd hcontra (by simp)
        · rw [if_neg h] at hcontra; exact absurd hcontra (by simp)
      · intro hcontra
        exact absurd (by simpa using hext) hcontra

/-- C10 witness: a 1×1 input with `tile_size = 2` — the precondition fails,
extraction is not total and construction aborts (`none`). -/
theorem wfc_C10_extraction_precondition_witness :
    ((extract_tiles [[colorA]] 2).isSome ↔
        (([[colorA]] : List (List Color)) ≠ [] ∧
          2 ≤ ([[colorA]] : List (List Color)).length ∧ 2 ≤ 1)) ∧
    (WfcEngine.new [[colorA]] 1 2 = none ↔
        ¬ (([[colorA]] : List (List Color)) ≠ [] ∧
          2 ≤ ([[colorA]] : List (List Color)).length ∧ 2 ≤ 1)) :=
  wfc_C10_extraction_precondition [[colorA]] 1 2 1 (by decide)

/-! ### `reset` (claim C8) -/

/-- The engine produced by `new [[colorA]] 1 1`: a single tile, so
`all_flags = 1` and every cell is already collapsed. -/
def wfcSolid : WfcEngine where
  output_size := 1
  tile_size := 1
  tiles := [[[colorA]]]
  weights := [4]
  adjacencies := compute_adjacencies [[[colorA]]]
  matrix := [1]
  entropy_map := [1]
  all_flags := 1
  stack := []
  last_contradiction_pos := none
  local_reset_size := 8
  local_reset_attempts := 0

/-- C8, counterexample: for the (constructible) one-tile engine, `reset`
yields `get_collapsed_count = 1`, not `0`: with a single tile the
all-tiles-possible domain already has entropy 1. -/
theorem wfc_C8_counterexample :
    WfcEngine.new [[colorA]] 1 1 = some (Except.ok wfcSolid) ∧
    wfcSolid.reset.get_collapsed_count = 1 := by
  constructor
  · rfl
  · decide

/-- C8, amended: `reset` never recomputes the tile set or adjacency table
(those fields are untouched), restores every cell to the all-tiles-possible
mask with entropy equal to the tile count, and yields
`get_collapsed_count = 0` whenever the tile count is not exactly 1; with
exactly one tile every cell is already collapsed instead. -/
theorem wfc_C8_reset_state (s : WfcEngine) :
    (s.reset.tiles = s.tiles ∧ s.reset.adjacencies = s.adjacencies ∧
      s.reset.weights = s.weights ∧ s.reset.all_flags = s.all_flags) ∧
    (∀ i < s.matrix.length, s.reset.matrix.getD i 0 = s.all_flags) ∧
    (∀ i < s.entropy_map.length,
        s.reset.entropy_map.getD i 0 = s.tiles.length) ∧
    (s.tiles.length ≠ 1 → s.reset.get_collapsed_count = 0) ∧
    (s.tiles.length = 1 →
        s.reset.get_collapsed_count = s.entropy_map.length) := by
  refine ⟨⟨rfl, rfl, rfl, rfl⟩, ?_, ?_, ?_, ?_⟩
  · intro i hi
    exact getD_map_const s.matrix s.all_flags i hi
  · intro i hi
    exact getD_map_const s.entropy_map s.tiles.length i hi
  · intro h
    show ((s.entropy_map.map fun _ => s.tiles.length).filter
        fun e => e == 1).length = 0
    rw [List.filter_map]
    have : ((fun e => e == 1) ∘ fun _ : Nat => s.tiles.length)
        = fun _ : Nat => false := by
      funext x
      simp [Function.comp, h]
    rw [this]
    simp
  · intro h
    show ((s.entropy_map.map fun _ => s.tiles.length).filter
        fun e => e == 1).length = s.entropy_map.length
    rw [List.filter_map]
    have : ((fun e => e == 1) ∘ fun _ : Nat => s.tiles.length)
        = fun _ : Nat => true := by
      funext x
      simp [Function.comp, h]
    rw [this]
    simp

/-- A partially collapsed two-tile engine (1×1 grid, both tiles possible). -/
def wfcPair : WfcEngine where
  output_size := 1
  tile_size := 1
  tiles := [chkTileA, chkTileB]
  weights := [8, 8]
  adjacencies := compute_adjacencies [chkTileA, chkTileB]
  matrix := [3]
  entropy_map := [2]
  all_flags := 3
  stack := []
  last_contradiction_pos := none
  local_reset_size := 8
  local_reset_attempts := 0

/-- C8 witness: for the two-tile engine, `reset` keeps the tile set and
gives a collapsed count of 0, via the amended theorem. -/
theorem wfc_C8_reset_state_witness :
    wfcPair.reset.tiles = wfcPair.tiles ∧
    wfcPair.reset.get_collapsed_count = 0 :=
  ⟨(wfc_C8_reset_state wfcPair).1.1,
    (wfc_C8_reset_state wfcPair).2.2.2.1 (by decide)⟩

/-! ### Adjacency symmetry (claim C5) -/

/-- `can_overlap` unfolded to its universally quantified reading: every pair
of overlapping cells (relative offset `(dr, dc)`) agrees. -/
theorem can_overlap_iff (t1 t2 : Tile) (dr dc : Int) :
    can_overlap t1 t2 dr dc = true ↔
      ∀ r1 < t1.length, ∀ c1 < t1.length,
        0 ≤ (r1 : Int) + dr → (r1 : Int) + dr < (t1.length : Int) →
        0 ≤ (c1 : Int) + dc → (c1 : Int) + dc < (t1.length : Int) →
        colorAt t1 r1 c1
          = colorAt t2 ((r1 : Int) + dr).toNat ((c1 : Int) + dc).toNat := by
  simp only [can_overlap, List.all_eq_true, List.mem_range]
  constructor
  · intro h r1 hr1 c1 hc1 h1 h2 h3 h4
    have hx := h r1 hr1 c1 hc1
    rw [if_pos ⟨h1, h2, h3, h4⟩] at hx
    exact of_decide_eq_true hx
  · intro h r1 hr1 c1 hc1
    by_cases hc : 0 ≤ (r1 : Int) + dr ∧ (r1 : Int) + dr < (t1.length : Int) ∧
        0 ≤ (c1 : Int) + dc ∧ (c1 : Int) + dc < (t1.length : Int)
    · rw [if_pos hc]
      exact decide_eq_true (h r1 hr1 c1 hc1 hc.1 hc.2.1 hc.2.2.1 hc.2.2.2)
    · rw [if_neg hc]

/-- One direction of overlap symmetry for equally sized tiles. -/
theorem can_overlap_mp (t1 t2 : Tile) (h : t1.length = t2.length)
    (dr dc : Int) (H : can_overlap t1 t2 dr dc = true) :
    can_overlap t2 t1 (-dr) (-dc) = true := by
  rw [can_overlap_iff] at H ⊢
  rw [← h]
  intro a ha b hb h1 h2 h3 h4
  have hr1lt : ((a : Int) + -dr).toNat < t1.length := by omega
  have hc1lt : ((b : Int) + -dc).toNat < t1.length := by omega
  have hx := H _ hr1lt _ hc1lt (by omega) (by omega) (by omega) (by omega)
  have e1 : (((((a : Int) + -dr).toNat : Nat) : Int) + dr).toNat = a := by omega
  have e2 : (((((b : Int) + -dc).toNat : Nat) : Int) + dc).toNat = b := by omega
  rw [e1, e2] at hx
  exact hx.symm

/-- Overlap compatibility is symmetric under reversing the offset. -/
theorem can_overlap_symm (t1 t2 : Tile) (h : t1.length = t2.length)
    (dr dc : Int) :
    can_overlap t1 t2 dr dc = can_overlap t2 t1 (-dr) (-dc) := by
  rw [Bool.eq_iff_iff]
  constructor
  · exact can_overlap_mp t1 t2 h dr dc
  · intro H
    have hx := can_overlap_mp t2 t1 h.symm (-dr) (-dc) H
    rwa [neg_neg, neg_neg] at hx

/-- Bit `j` of `adjMask tiles i d` is exactly the `can_overlap` test. -/
theorem adjMask_testBit (tiles : List Tile) (i : Nat) (d : Int × Int)
    (j : Nat) :
    (adjMask tiles i d).testBit j
      = (decide (j < tiles.length) &&
          can_overlap (tiles.getD i []) (tiles.getD j []) d.1 d.2) := by
  unfold adjMask
  rw [testBit_foldl_or]
  simp [List.mem_range]

/-- The `i`-th row of the adjacency table, for `i` in range. -/
theorem compute_adjacencies_getD (tiles : List Tile) (i : Nat)
    (h : i < tiles.length) :
    (compute_adjacencies tiles).getD i (fun _ => 0)
      = fun d => if d ∈ dirs then adjMask tiles i d else 0 := by
  unfold compute_adjacencies
  rw [List.getD_eq_getElem?_getD, List.getElem?_map, List.getElem?_range h]
  rfl

/-- C5: the adjacency table is symmetric — for tile indices `i, j` in range
(of equally sized tiles) and any of the four directions `d`, bit `j` of
`adjacency[i][d]` is set iff bit `i` of `adjacency[j][-d]` is set. -/
theorem wfc_C5_adjacency_symmetric (tiles : List Tile) (i j : Nat)
    (d : Int × Int) (hi : i < tiles.length) (hj : j < tiles.length)
    (hd : d ∈ dirs)
    (hsz : (tiles.getD i []).length = (tiles.getD j []).length) :
    Nat.testBit ((compute_adjacencies tiles).getD i (fun _ => 0) d) j
      = Nat.testBit
          ((compute_adjacencies tiles).getD j (fun _ => 0) (-d.1, -d.2)) i := by
  have hd' : (-d.1, -d.2) ∈ dirs := by
    simp only [dirs, List.mem_cons, List.not_mem_nil, or_false] at hd ⊢
    rcases hd with h | h | h | h <;> subst h <;> simp
  rw [compute_adjacencies_getD tiles i hi, compute_adjacencies_getD tiles j hj]
  simp only [if_pos hd, if_pos hd']
  rw [adjMask_testBit, adjMask_testBit]
  simp only [hi, hj, decide_eq_true_eq, decide_eq_true, Bool.true_and]
  exact can_overlap_symm _ _ hsz d.1 d.2

/-- C5 witness: symmetry instantiated on the two checkerboard tiles with
`d = (-1, 0)` (up) whose opposite is `(1, 0)` (down). -/
theorem wfc_C5_adjacency_symmetric_witness :
    Nat.testBit
        ((compute_adjacencies [chkTileA, chkTileB]).getD 0 (fun _ => 0)
          (-1, 0)) 1
      = Nat.testBit
          ((compute_adjacencies [chkTileA, chkTileB]).getD 1 (fun _ => 0)
            (1, 0)) 0 :=
  wfc_C5_adjacency_symmetric [chkTileA, chkTileB] 0 1 (-1, 0)
    (by decide) (by decide) (by decide) (by decide)

/-! ### `step` termination condition (claim C4) -/

/-- The `find_lowest_entropy` accumulation loop over an abstract entropy
function, for reasoning by induction on the scanned prefix. -/
def candFold (e : Nat → Nat) (n : Nat) : Nat × List Nat :=
  (List.range n).foldl
    (fun acc i =>
      if 1 < e i then
        if e i < acc.1 then (e i, [i])
        else if e i = acc.1 then (acc.1, acc.2 ++ [i])
        else acc
      else acc)
    (usizeMax, [])

theorem findCandidates_eq (s : WfcEngine) :
    s.findCandidates = candFold (fun i => s.entropy_map.getD i 0)
      s.matrix.length := rfl

/-- The candidate list is empty iff no scanned cell has entropy above 1
(entropies are `usize` values, hence bounded by `usize::MAX`). -/
theorem candFold_spec (e : Nat → Nat) :
    ∀ n : Nat, (∀ i < n, e i ≤ usizeMax) →
      ((candFold e n).2 = [] → (candFold e n).1 = usizeMax) ∧
      ((candFold e n).2 = [] ↔ ∀ i < n, e i ≤ 1) := by
  intro n
  induction n with
  | zero => intro _; simp [candFold]
  | succ n ih =>
      intro hb
      obtain ⟨ih1, ih2⟩ := ih (fun i hi => hb i (by omega))
      have hstep : candFold e (n + 1) =
          (if 1 < e n then
            if e n < (candFold e n).1 then (e n, [n])
            else if e n = (candFold e n).1 then
              ((candFold e n).1, (candFold e n).2 ++ [n])
            else candFold e n
          else candFold e n) := by
        unfold candFold
        rw [List.range_succ, List.foldl_append, List.foldl_cons, List.foldl_nil]
      rw [hstep]
      by_cases he : 1 < e n
      · rw [if_pos he]
        by_cases hlt : e n < (candFold e n).1
        · rw [if_pos hlt]
          refine ⟨fun h => absurd h (by simp), ?_⟩
          exact iff_of_false (by simp)
            (fun hall => absurd (hall n (by omega)) (by omega))
        · rw [if_neg hlt]
          by_cases heq : e n = (candFold e n).1
          · rw [if_pos heq]
            refine ⟨fun h => absurd h (by simp), ?_⟩
            exact iff_of_false (by simp)
              (fun hall => absurd (hall n (by omega)) (by omega))
          · rw [if_neg heq]
            have hne : (candFold e n).2 ≠ [] := by
              intro hnil
              have := ih1 hnil
              have hbn := hb n (by omega)
              omega
            refine ⟨fun h => absurd h hne, ?_⟩
            exact iff_of_false hne
              (fun hall => absurd (hall n (by omega)) (by omega))
      · rw [if_neg he]
        refine ⟨ih1, ?_⟩
        rw [ih2]
        constructor
        · intro hall i hi
          rcases Nat.lt_succ_iff_lt_or_eq.mp hi with h | h
          · exact hall i h
          · subst h; omega
        · intro hall i hi
          exact hall i (by omega)

/-- `find_lowest_entropy` returns `none` exactly when no cell is
undetermined. -/
theorem find_lowest_entropy_none_iff (s : WfcEngine) (sel : Nat)
    (hb : ∀ i < s.matrix.length, s.entropy_map.getD i 0 ≤ usizeMax) :
    s.find_lowest_entropy sel = none ↔
      ∀ i < s.matrix.length, s.entropy_map.getD i 0 ≤ 1 := by
  have hc := (candFold_spec (fun i => s.entropy_map.getD i 0)
    s.matrix.length hb).2
  unfold WfcEngine.find_lowest_entropy
  rw [findCandidates_eq]
  by_cases h : (candFold (fun i => s.entropy_map.getD i 0)
      s.matrix.length).2 = []
  · rw [if_pos (by simpa [List.isEmpty_iff] using h)]
    exact iff_of_true rfl (hc.mp h)
  · rw [if_neg (by simpa [List.isEmpty_iff] using h)]
    simp only [reduceCtorEq, false_iff]
    rw [← hc]
    exact h

/-- C4: whenever `step` returns, it returns `false` iff no undetermined
cell remained on entry (every cell's cached entropy is at most 1, i.e. the
grid is fully collapsed); in every other returning case — including a
contradiction that was just detected and repaired — it returns `true`. -/
theorem wfc_C4_step_false_iff_collapsed (s : WfcEngine)
    (sel obsK fuel : Nat) (b : Bool) (s' : WfcEngine)
    (hb : ∀ i < s.matrix.length, s.entropy_map.getD i 0 ≤ usizeMax)
    (h : s.step sel obsK fuel = some (b, s')) :
    b = false ↔ ∀ i < s.matrix.length, s.entropy_map.getD i 0 ≤ 1 := by
  cases hf : s.find_lowest_entropy sel with
  | none =>
      simp only [WfcEngine.step, hf, Option.some.injEq, Prod.mk.injEq] at h
      obtain ⟨hb', hs'⟩ := h
      subst hb'
      exact iff_of_true rfl ((find_lowest_entropy_none_iff s sel hb).mp hf)
  | some idx =>
      have hbtrue : b = true := by
        simp only [WfcEngine.step, hf] at h
        split at h
        · exact absurd h (by simp)
        · simp only [Option.some.injEq, Prod.mk.injEq] at h
          exact h.1.symm
        · simp only [Option.some.injEq, Prod.mk.injEq] at h
          exact h.1.symm
      subst hbtrue
      refine iff_of_false (by simp) ?_
      intro hall
      have hnone := (find_lowest_entropy_none_iff s sel hb).mpr hall
      rw [hf] at hnone
      exact absurd hnone (by simp)

/-- C4 witness: the fully collapsed one-tile engine — `step` returns
`false` and indeed every entropy is at most 1. -/
theorem wfc_C4_step_false_iff_collapsed_witness :
    (false = false ↔ ∀ i < wfcSolid.matrix.length,
        wfcSolid.entropy_map.getD i 0 ≤ 1) :=
  wfc_C4_step_false_iff_collapsed wfcSolid 0 0 1 false wfcSolid
    (by intro i hi
        have h0 : i = 0 := by
          simpa [wfcSolid, Nat.lt_one_iff] using hi
        subst h0
        decide)
    rfl

/-! ### Engine invariants (claims C2 and C3) -/

/-- The entropy cache of every grid cell equals the population count of
that cell's domain bitmask. -/
def entropyConsistent (s : WfcEngine) : Prop :=
  ∀ i < s.matrix.length, s.entropy_map.getD i 0 = popCount (s.matrix.getD i 0)

/-- No grid cell's domain bitmask is zero. -/
def noEmptyDomain (s : WfcEngine) : Prop :=
  ∀ i < s.matrix.length, s.matrix.getD i 0 ≠ 0

/-- Well-formedness needed to push entropy consistency through `step`: the
two per-cell arrays have equal length and the all-possible mask has exactly
one bit per tile (as established by the constructor). -/
def ECInv (s : WfcEngine) : Prop :=
  s.entropy_map.length = s.matrix.length ∧
  popCount s.all_flags = s.tiles.length ∧
  entropyConsistent s

/-- Well-formedness needed to push domain non-emptiness through `step`. -/
def NEInv (s : WfcEngine) : Prop :=
  s.all_flags ≠ 0 ∧ noEmptyDomain s

theorem getD_set (l : List Nat) (idx v i : Nat) :
    (l.set idx v).getD i 0
      = if idx = i ∧ idx < l.length then v else l.getD i 0 := by
  by_cases hx : idx = i
  · subst hx
    by_cases hlt : idx < l.length
    · rw [if_pos ⟨rfl, hlt⟩]
      exact getD_set_self l idx v hlt
    · rw [if_neg (by omega), List.set_eq_of_length_le (by omega)]
  · rw [if_neg (by tauto)]
    exact getD_set_ne l v hx

theorem ECInv_set (s : WfcEngine) (idx v : Nat) (st : List (Nat × Nat))
    (h : ECInv s) :
    ECInv { s with matrix := s.matrix.set idx v,
                   entropy_map := s.entropy_map.set idx (popCount v),
                   stack := st } := by
  obtain ⟨hlen, hflag, hec⟩ := h
  refine ⟨by simpa using hlen, hflag, ?_⟩
  intro i hi
  simp only [List.length_set] at hi
  show (s.entropy_map.set idx (popCount v)).getD i 0
      = popCount ((s.matrix.set idx v).getD i 0)
  rw [getD_set, getD_set]
  by_cases hcond : idx = i ∧ idx < s.matrix.length
  · rw [if_pos hcond, if_pos ⟨hcond.1, by omega⟩]
  · rw [if_neg hcond, if_neg (by omega)]
    exact hec i hi

theorem NEInv_set (s : WfcEngine) (idx v ev : Nat) (st : List (Nat × Nat))
    (hv : v ≠ 0) (h : NEInv s) :
    NEInv { s with matrix := s.matrix.set idx v,
                   entropy_map := s.entropy_map.set idx ev,
                   stack := st } := by
  refine ⟨h.1, ?_⟩
  intro i hi
  simp only [List.length_set] at hi
  show (s.matrix.set idx v).getD i 0 ≠ 0
  rw [getD_set]
  split_ifs with hcond
  · exact hv
  · exact h.2 i hi

/-- Any property preserved by the single kind of write `propagateDirs`
performs (a non-zero mask together with its popcount, plus a stack push) is
preserved by the whole neighbour loop. -/
theorem propagateDirs_preserve (P : WfcEngine → Prop)
    (hset : ∀ (s : WfcEngine) (idx v : Nat) (st : List (Nat × Nat)),
        v ≠ 0 → P s →
        P { s with matrix := s.matrix.set idx v,
                   entropy_map := s.entropy_map.set idx (popCount v),
                   stack := st }) :
    ∀ (ds : List (Int × Int)) (s : WfcEngine) (m r c : Nat), P s →
      P (WfcEngine.propagateDirs s m r c ds).2 := by
  intro ds
  induction ds with
  | nil => intro s m r c hP; simpa [WfcEngine.propagateDirs] using hP
  | cons d rest ih =>
      intro s m r c hP
      obtain ⟨dr, dc⟩ := d
      simp only [WfcEngine.propagateDirs]
      split
      · split
        · exact ih s m r c hP
        · split
          · exact hP
          · split
            · next hz _ =>
                exact ih _ m r c (hset s _ _ _ hz hP)
            · exact ih s m r c hP
      · exact ih s m r c hP

/-- Any property preserved by stack manipulation and by the neighbour loop
is preserved by a returning `propagate` call. -/
theorem propagate_preserve (P : WfcEngine → Prop)
    (hstack : ∀ (s : WfcEngine) (st : List (Nat × Nat)), P s →
        P { s with stack := st })
    (hdirs : ∀ (s : WfcEngine) (m r c : Nat), P s →
        P (WfcEngine.propagateDirs s m r c dirs).2) :
    ∀ (fuel : Nat) (s : WfcEngine) (b : Bool) (s' : WfcEngine),
      WfcEngine.propagate fuel s = some (b, s') → P s → P s' := by
  intro fuel
  induction fuel with
  | zero => intro s b s' h; exact absurd h (by simp [WfcEngine.propagate])
  | succ fuel ih =>
      intro s b s' h hP
      simp only [WfcEngine.propagate] at h
      split at h
      · simp only [Option.some.injEq, Prod.mk.injEq] at h
        rw [← h.2]
        exact hP
      · next r c rest heq1 =>
          have hP1 : P { s with stack := rest } := hstack s rest hP
          have hP2 := hdirs { s with stack := rest }
            (s.matrix.getD (r * s.output_size + c) 0) r c hP1
          split at h
          · next s2 heq =>
              simp only [Option.some.injEq, Prod.mk.injEq] at h
              rw [← h.2]
              rw [heq] at hP2
              exact hP2
          · next s2 heq =>
              rw [heq] at hP2
              exact ih _ _ _ h hP2

theorem ECInv_stack (s : WfcEngine) (st : List (Nat × Nat)) (h : ECInv s) :
    ECInv { s with stack := st } := h

theorem ECInv_reset (s : WfcEngine) (h : ECInv s) : ECInv s.reset := by
  obtain ⟨hlen, hflag, hec⟩ := h
  refine ⟨by simpa [WfcEngine.reset] using hlen, hflag, ?_⟩
  intro i hi
  simp only [WfcEngine.reset, List.length_map] at hi ⊢
  rw [getD_map_const _ _ _ (by omega), getD_map_const _ _ _ hi]
  exact hflag.symm

theorem ECInv_resetCell (s : WfcEngine) (nr nc : Int) (h : ECInv s) :
    ECInv (s.resetCell nr nc) := by
  unfold WfcEngine.resetCell
  split
  · have hx := ECInv_set s (nr.toNat * s.output_size + nc.toNat)
      s.all_flags s.stack h
    rw [h.2.1] at hx
    exact hx
  · exact h

theorem ECInv_reset_local (s : WfcEngine) (row col size : Nat)
    (h : ECInv s) : ECInv (s.reset_local row col size) := by
  unfold WfcEngine.reset_local
  refine ECInv_stack _ [] ?_
  exact foldl_preserves ECInv _
    (fun a dr ha => foldl_preserves ECInv _
      (fun a2 dc ha2 => ECInv_resetCell a2 _ _ ha2) _ a ha) _ s h

theorem ECInv_handle (s : WfcEngine) (row col : Nat) (h : ECInv s) :
    ECInv (s.handle_contradiction row col) := by
  simp only [WfcEngine.handle_contradiction]
  by_cases hA : 8 < s.local_reset_attempts + 1
  · rw [if_pos hA]
    split
    · exact ECInv_reset _ h
    · exact ECInv_reset_local _ _ _ _ h
  · rw [if_neg hA]
    split
    · exact ECInv_reset _ h
    · exact ECInv_reset_local _ _ _ _ h

theorem ECInv_collapse (s : WfcEngine) (idx k : Nat) (st : List (Nat × Nat))
    (h : ECInv s) :
    ECInv { s with matrix := s.matrix.set idx (1 <<< k),
                   entropy_map := s.entropy_map.set idx 1,
                   stack := st } := by
  have h1 : (1 : Nat) = popCount (1 <<< k) := by
    rw [Nat.shiftLeft_eq, one_mul, popCount_two_pow]
  have hx := ECInv_set s idx (1 <<< k) st h
  rwa [← h1] at hx

theorem ECInv_step (s : WfcEngine) (sel obsK fuel : Nat) (b : Bool)
    (s' : WfcEngine) (h : s.step sel obsK fuel = some (b, s'))
    (hinv : ECInv s) : ECInv s' := by
  simp only [WfcEngine.step] at h
  split at h
  · simp only [Option.some.injEq, Prod.mk.injEq] at h
    rw [← h.2]
    exact hinv
  · next idx heqf =>
      have hco := ECInv_collapse s idx
        (s.observe (s.matrix.getD idx 0) obsK)
        ((idx / s.output_size, idx % s.output_size) :: s.stack) hinv
      have hdirs : ∀ (t : WfcEngine) (m r c : Nat), ECInv t →
          ECInv (t.propagateDirs m r c dirs).2 :=
        fun t m r c ht => propagateDirs_preserve ECInv
          (fun t2 idx2 v st hv h2 => ECInv_set t2 idx2 v st h2) dirs t m r c ht
      split at h
      · exact absurd h (by simp)
      · next s3 heq =>
          simp only [Option.some.injEq, Prod.mk.injEq] at h
          rw [← h.2]
          exact propagate_preserve ECInv (fun t st ht => ht) hdirs
            fuel _ true s3 heq hco
      · next s3 heq =>
          simp only [Option.some.injEq, Prod.mk.injEq] at h
          rw [← h.2]
          exact ECInv_handle _ _ _
            (propagate_preserve ECInv (fun t st ht => ht) hdirs
              fuel _ false s3 heq hco)

theorem NEInv_stack (s : WfcEngine) (st : List (Nat × Nat)) (h : NEInv s) :
    NEInv { s with stack := st } := h

theorem NEInv_reset (s : WfcEngine) (h : NEInv s) : NEInv s.reset := by
  refine ⟨h.1, ?_⟩
  intro i hi
  simp only [WfcEngine.reset, List.length_map] at hi ⊢
  rw [getD_map_const _ _ _ hi]
  exact h.1

theorem NEInv_resetCell (s : WfcEngine) (nr nc : Int) (h : NEInv s) :
    NEInv (s.resetCell nr nc) := by
  unfold WfcEngine.resetCell
  split
  · exact NEInv_set s _ s.all_flags s.tiles.length s.stack h.1 h
  · exact h

theorem NEInv_reset_local (s : WfcEngine) (row col size : Nat)
    (h : NEInv s) : NEInv (s.reset_local row col size) := by
  unfold WfcEngine.reset_local
  refine NEInv_stack _ [] ?_
  exact foldl_preserves NEInv _
    (fun a dr ha => foldl_preserves NEInv _
      (fun a2 dc ha2 => NEInv_resetCell a2 _ _ ha2) _ a ha) _ s h

theorem NEInv_handle (s : WfcEngine) (row col : Nat) (h : NEInv s) :
    NEInv (s.handle_contradiction row col) := by
  simp only [WfcEngine.handle_contradiction]
  by_cases hA : 8 < s.local_reset_attempts + 1
  · rw [if_pos hA]
    split
    · exact NEInv_reset _ h
    · exact NEInv_reset_local _ _ _ _ h
  · rw [if_neg hA]
    split
    · exact NEInv_reset _ h
    · exact NEInv_reset_local _ _ _ _ h

theorem NEInv_step (s : WfcEngine) (sel obsK fuel : Nat) (b : Bool)
    (s' : WfcEngine) (h : s.step sel obsK fuel = some (b, s'))
    (hinv : NEInv s) : NEInv s' := by
  simp only [WfcEngine.step] at h
  split at h
  · simp only [Option.some.injEq, Prod.mk.injEq] at h
    rw [← h.2]
    exact hinv
  · next idx heqf =>
      have hshift : (1 : Nat) <<< s.observe (s.matrix.getD idx 0) obsK ≠ 0 := by
        rw [Nat.shiftLeft_eq, one_mul]
        positivity
      have hco := NEInv_set s idx
        (1 <<< s.observe (s.matrix.getD idx 0) obsK) 1
        ((idx / s.output_size, idx % s.output_size) :: s.stack) hshift hinv
      have hdirs : ∀ (t : WfcEngine) (m r c : Nat), NEInv t →
          NEInv (t.propagateDirs m r c dirs).2 :=
        fun t m r c ht => propagateDirs_preserve NEInv
          (fun t2 idx2 v st hv h2 => NEInv_set t2 idx2 v (popCount v) st hv h2)
          dirs t m r c ht
      split at h
      · exact absurd h (by simp)
      · next s3 heq =>
          simp only [Option.some.injEq, Prod.mk.injEq] at h
          rw [← h.2]
          exact propagate_preserve NEInv (fun t st ht => ht) hdirs
            fuel _ true s3 heq hco
      · next s3 heq =>
          simp only [Option.some.injEq, Prod.mk.injEq] at h
          rw [← h.2]
          exact NEInv_handle _ _ _
            (propagate_preserve NEInv (fun t st ht => ht) hdirs
              fuel _ false s3 heq hco)

/-- C2: whenever `step` returns, the entropy cache of every cell of the
resulting grid equals the population count of that cell's domain bitmask,
provided the entry state was well-formed (aligned arrays, `all_flags` with
one bit per tile) and consistent. -/
theorem wfc_C2_entropy_cache_consistent (s : WfcEngine)
    (sel obsK fuel : Nat) (b : Bool) (s' : WfcEngine)
    (hlen : s.entropy_map.length = s.matrix.length)
    (hflags : popCount s.all_flags = s.tiles.length)
    (hcons : entropyConsistent s)
    (h : s.step sel obsK fuel = some (b, s')) :
    entropyConsistent s' :=
  (ECInv_step s sel obsK fuel b s' h ⟨hlen, hflags, hcons⟩).2.2

/-- C2 witness: one collapsing step on the two-tile 1×1 engine. -/
theorem wfc_C2_entropy_cache_consistent_witness :
    entropyConsistent
      { wfcPair with matrix := [1], entropy_map := [1], stack := [] } :=
  wfc_C2_entropy_cache_consistent wfcPair 0 0 2 true
    { wfcPair with matrix := [1], entropy_map := [1], stack := [] }
    rfl (by decide)
    (by intro i hi
        have h1 : wfcPair.matrix.length = 1 := rfl
        rw [h1] at hi
        have h0 : i = 0 := by omega
        subst h0
        decide)
    rfl

/-- C3: whenever `step` returns, no cell of the resulting grid holds an
empty (zero) domain bitmask, provided no cell held one on entry and the
all-possible mask is non-zero (at least one tile); in particular the
contradiction-repair path never leaves an empty domain behind. -/
theorem wfc_C3_no_empty_domain (s : WfcEngine)
    (sel obsK fuel : Nat) (b : Bool) (s' : WfcEngine)
    (hflags : s.all_flags ≠ 0)
    (hne : noEmptyDomain s)
    (h : s.step sel obsK fuel = some (b, s')) :
    noEmptyDomain s' :=
  (NEInv_step s sel obsK fuel b s' h ⟨hflags, hne⟩).2

/-- C3 witness: one collapsing step on the two-tile 1×1 engine. -/
theorem wfc_C3_no_empty_domain_witness :
    noEmptyDomain
      { wfcPair with matrix := [1], entropy_map := [1], stack := [] } :=
  wfc_C3_no_empty_domain wfcPair 0 0 2 true
    { wfcPair with matrix := [1], entropy_map := [1], stack := [] }
    (by decide)
    (by intro i hi
        have h1 : wfcPair.matrix.length = 1 := rfl
        rw [h1] at hi
        have h0 : i = 0 := by omega
        subst h0
        decide)
    rfl

/-! ### Contradiction recovery (claim C7) -/

theorem mem_intRangeList (lo hi x : Int) :
    x ∈ WfcEngine.intRangeList lo hi ↔ lo ≤ x ∧ x < hi := by
  unfold WfcEngine.intRangeList
  rw [List.mem_map]
  constructor
  · rintro ⟨k, hk, rfl⟩
    rw [List.mem_range] at hk
    omega
  · rintro ⟨h1, h2⟩
    refine ⟨(x - lo).toNat, ?_, by omega⟩
    rw [List.mem_range]
    omega

theorem grid_index_inj (out a b a' b' : Nat) (hb : b < out) (hb' : b' < out)
    (h : a * out + b = a' * out + b') : a = a' ∧ b = b' := by
  have h0 : 0 < out := by omega
  have h1 : (a * out + b) / out = a := by
    rw [Nat.mul_comm a out, Nat.mul_add_div h0, Nat.div_eq_of_lt hb,
      Nat.add_zero]
  have h2 : (a' * out + b') / out = a' := by
    rw [Nat.mul_comm a' out, Nat.mul_add_div h0, Nat.div_eq_of_lt hb',
      Nat.add_zero]
  have h3 : (a * out + b) % out = b := by
    rw [Nat.mul_comm a out, Nat.mul_add_mod, Nat.mod_eq_of_lt hb]
  have h4 : (a' * out + b') % out = b' := by
    rw [Nat.mul_comm a' out, Nat.mul_add_mod, Nat.mod_eq_of_lt hb']
  constructor
  · rw [← h1, ← h2, h]
  · rw [← h3, ← h4, h]

/-- The offset pair `p`, applied at centre `(row, col)`, lands in bounds on
the grid of side `out` and targets the flat index `i` (which is inside the
`len`-long matrix). -/
def hitsCell (out len row col : Nat) (p : Int × Int) (i : Nat) : Prop :=
  0 ≤ (row : Int) + p.1 ∧ (row : Int) + p.1 < (out : Int) ∧
  0 ≤ (col : Int) + p.2 ∧ (col : Int) + p.2 < (out : Int) ∧
  ((row : Int) + p.1).toNat * out + ((col : Int) + p.2).toNat = i ∧ i < len

instance (out len row col : Nat) (p : Int × Int) (i : Nat) :
    Decidable (hitsCell out len row col p i) := by
  unfold hitsCell
  exact inferInstance

/-- The `reset_local` write loop over an explicit list of offset pairs. -/
def resetPairFold (s : WfcEngine) (row col : Nat)
    (ps : List (Int × Int)) : WfcEngine :=
  ps.foldl
    (fun t p => t.resetCell ((row : Int) + p.1) ((col : Int) + p.2)) s

theorem double_fold_eq (s : WfcEngine) (row col : Nat) (l1 l2 : List Int) :
    l1.foldl
      (fun t dr => l2.foldl
        (fun t2 dc => t2.resetCell ((row : Int) + dr) ((col : Int) + dc)) t)
      s
      = resetPairFold s row col (l1.flatMap fun dr => l2.map fun dc => (dr, dc)) := by
  induction l1 generalizing s with
  | nil => rfl
  | cons dr l1 ih =>
      simp only [List.foldl_cons, List.flatMap_cons]
      rw [ih]
      unfold resetPairFold
      rw [List.foldl_append, List.foldl_map]

theorem resetPairFold_spec (row col : Nat) :
    ∀ (ps : List (Int × Int)) (s : WfcEngine),
      s.entropy_map.length = s.matrix.length →
      ((resetPairFold s row col ps).output_size = s.output_size ∧
       (resetPairFold s row col ps).tiles = s.tiles ∧
       (resetPairFold s row col ps).all_flags = s.all_flags ∧
       (resetPairFold s row col ps).stack = s.stack ∧
       (resetPairFold s row col ps).local_reset_size = s.local_reset_size ∧
       (resetPairFold s row col ps).local_reset_attempts
          = s.local_reset_attempts ∧
       (resetPairFold s row col ps).matrix.length = s.matrix.length ∧
       (resetPairFold s row col ps).entropy_map.length
          = s.entropy_map.length) ∧
      (∀ i : Nat,
        (resetPairFold s row col ps).matrix.getD i 0 =
          if ∃ p ∈ ps, hitsCell s.output_size s.matrix.length row col p i
          then s.all_flags else s.matrix.getD i 0) ∧
      (∀ i : Nat,
        (resetPairFold s row col ps).entropy_map.getD i 0 =
          if ∃ p ∈ ps, hitsCell s.output_size s.matrix.length row col p i
          then s.tiles.length else s.entropy_map.getD i 0) := by
  intro ps
  induction ps with
  | nil =>
      intro s hlen
      refine ⟨⟨rfl, rfl, rfl, rfl, rfl, rfl, rfl, rfl⟩, ?_, ?_⟩ <;>
        · intro i
          rw [if_neg (by simp)]
          rfl
  | cons p ps ih =>
      intro s hlen
      have hfold : resetPairFold s row col (p :: ps)
          = resetPairFold
              (s.resetCell ((row : Int) + p.1) ((col : Int) + p.2))
              row col ps := rfl
      by_cases hb : 0 ≤ (row : Int) + p.1 ∧
          (row : Int) + p.1 < (s.output_size : Int) ∧
          0 ≤ (col : Int) + p.2 ∧ (col : Int) + p.2 < (s.output_size : Int)
      · -- the head offset lands in bounds and writes one cell
        have hcell : s.resetCell ((row : Int) + p.1) ((col : Int) + p.2)
            = { s with
                matrix := s.matrix.set
                  (((row : Int) + p.1).toNat * s.output_size +
                    ((col : Int) + p.2).toNat) s.all_flags,
                entropy_map := s.entropy_map.set
                  (((row : Int) + p.1).toNat * s.output_size +
                    ((col : Int) + p.2).toNat) s.tiles.length } := by
          unfold WfcEngine.resetCell
          rw [if_pos hb]
        rw [hfold, hcell]
        obtain ⟨hf, hm, he⟩ := ih
          { s with
            matrix := s.matrix.set
              (((row : Int) + p.1).toNat * s.output_size +
                ((col : Int) + p.2).toNat) s.all_flags,
            entropy_map := s.entropy_map.set
              (((row : Int) + p.1).toNat * s.output_size +
                ((col : Int) + p.2).toNat) s.tiles.length }
          (by simpa using hlen)
        dsimp only at hf hm he
        simp only [List.length_set] at hf hm he
        refine ⟨⟨hf.1, hf.2.1, hf.2.2.1, hf.2.2.2.1, hf.2.2.2.2.1,
          hf.2.2.2.2.2.1, by simpa using hf.2.2.2.2.2.2.1,
          by simpa using hf.2.2.2.2.2.2.2⟩, ?_, ?_⟩
        · intro i
          rw [hm i, getD_set]
          by_cases hps : ∃ q ∈ ps,
              hitsCell s.output_size s.matrix.length row col q i
          · rw [if_pos hps, if_pos ?_]
            obtain ⟨q, hq, hh⟩ := hps
            exact ⟨q, List.mem_cons_of_mem p hq, hh⟩
          · rw [if_neg hps]
            by_cases hpi : hitsCell s.output_size s.matrix.length row col p i
            · obtain ⟨hb1, hb2, hb3, hb4, hb5, hb6⟩ := hpi
              rw [if_pos ⟨hb5, by rw [hb5]; exact hb6⟩,
                if_pos ⟨p, List.mem_cons_self p ps,
                  ⟨hb1, hb2, hb3, hb4, hb5, hb6⟩⟩]
            · rw [if_neg ?_, if_neg ?_]
              · rintro ⟨q, hq, hh⟩
                rcases List.mem_cons.mp hq with hq0 | hq0
                · exact hpi (hq0 ▸ hh)
                · exact hps ⟨q, hq0, hh⟩
              · rintro ⟨heq0, hlt0⟩
                refine hpi ⟨hb.1, hb.2.1, hb.2.2.1, hb.2.2.2, heq0, ?_⟩
                rw [← heq0]
                exact hlt0
        · intro i
          rw [he i, getD_set]
          by_cases hps : ∃ q ∈ ps,
              hitsCell s.output_size s.matrix.length row col q i
          · rw [if_pos hps, if_pos ?_]
            obtain ⟨q, hq, hh⟩ := hps
            exact ⟨q, List.mem_cons_of_mem p hq, hh⟩
          · rw [if_neg hps]
            by_cases hpi : hitsCell s.output_size s.matrix.length row col p i
            · obtain ⟨hb1, hb2, hb3, hb4, hb5, hb6⟩ := hpi
              rw [if_pos ⟨hb5, by rw [hb5]; omega⟩,
                if_pos ⟨p, List.mem_cons_self p ps,
                  ⟨hb1, hb2, hb3, hb4, hb5, hb6⟩⟩]
            · rw [if_neg ?_, if_neg ?_]
              · rintro ⟨q, hq, hh⟩
                rcases List.mem_cons.mp hq with hq0 | hq0
                · exact hpi (hq0 ▸ hh)
                · exact hps ⟨q, hq0, hh⟩
              · rintro ⟨heq0, hlt0⟩
                refine hpi ⟨hb.1, hb.2.1, hb.2.2.1, hb.2.2.2, heq0, ?_⟩
                rw [← heq0, ← hlen]
                exact hlt0
      · -- the head offset is out of bounds: no write
        have hcell : s.resetCell ((row : Int) + p.1) ((col : Int) + p.2)
            = s := by
          unfold WfcEngine.resetCell
          rw [if_neg hb]
        rw [hfold, hcell]
        obtain ⟨hf, hm, he⟩ := ih s hlen
        have hcond : ∀ i : Nat,
            (∃ q ∈ p :: ps,
                hitsCell s.output_size s.matrix.length row col q i)
              ↔ (∃ q ∈ ps,
                hitsCell s.output_size s.matrix.length row col q i) := by
          intro i
          constructor
          · rintro ⟨q, hq, hh⟩
            rcases List.mem_cons.mp hq with hq0 | hq0
            · exact absurd ⟨(hq0 ▸ hh).1, (hq0 ▸ hh).2.1,
                (hq0 ▸ hh).2.2.1, (hq0 ▸ hh).2.2.2.1⟩ hb
            · exact ⟨q, hq0, hh⟩
          · rintro ⟨q, hq, hh⟩
            exact ⟨q, List.mem_cons_of_mem p hq, hh⟩
        refine ⟨hf, ?_, ?_⟩
        · intro i
          rw [hm i, if_congr (hcond i) rfl rfl]
        · intro i
          rw [he i, if_congr (hcond i) rfl rfl]

/-- The list of offset pairs visited by the two `reset_local` loops
(`dr` and `dc` both ranging over `-(size/2) .. size/2`, half-open). -/
def sqOffsets (size : Nat) : List (Int × Int) :=
  (WfcEngine.intRangeList (-((size / 2 : Nat) : Int)) ((size / 2 : Nat) : Int)).flatMap
    fun dr =>
      (WfcEngine.intRangeList (-((size / 2 : Nat) : Int)) ((size / 2 : Nat) : Int)).map
        fun dc => (dr, dc)

theorem mem_sqOffsets (size : Nat) (p : Int × Int) :
    p ∈ sqOffsets size ↔
      (-((size / 2 : Nat) : Int) ≤ p.1 ∧ p.1 < ((size / 2 : Nat) : Int) ∧
       -((size / 2 : Nat) : Int) ≤ p.2 ∧ p.2 < ((size / 2 : Nat) : Int)) := by
  obtain ⟨dr, dc⟩ := p
  simp only [sqOffsets, List.mem_flatMap, List.mem_map, Prod.mk.injEq]
  constructor
  · rintro ⟨a, ha, b, hb, rfl, rfl⟩
    rw [mem_intRangeList] at ha hb
    exact ⟨ha.1, ha.2, hb.1, hb.2⟩
  · rintro ⟨h1, h2, h3, h4⟩
    exact ⟨dr, (mem_intRangeList _ _ _).mpr ⟨h1, h2⟩,
      dc, (mem_intRangeList _ _ _).mpr ⟨h3, h4⟩, rfl, rfl⟩

/-- `(nr, nc)` lies in the `size × size` half-open square of offsets
`-(size/2) .. size/2` around `(row, col)`. -/
def inResetSquare (row col size nr nc : Nat) : Prop :=
  -((size / 2 : Nat) : Int) ≤ (nr : Int) - (row : Int) ∧
  (nr : Int) - (row : Int) < ((size / 2 : Nat) : Int) ∧
  -((size / 2 : Nat) : Int) ≤ (nc : Int) - (col : Int) ∧
  (nc : Int) - (col : Int) < ((size / 2 : Nat) : Int)

instance (row col size nr nc : Nat) :
    Decidable (inResetSquare row col size nr nc) := by
  unfold inResetSquare
  exact inferInstance

theorem grid_flat_lt (out nr nc : Nat) (h1 : nr < out) (h2 : nc < out) :
    nr * out + nc < out * out := by
  calc nr * out + nc < nr * out + out := by omega
    _ = (nr + 1) * out := by ring
    _ ≤ out * out := Nat.mul_le_mul_right out (by omega)

theorem sq_cond_iff (out len row col size nr nc : Nat)
    (hnr : nr < out) (hnc : nc < out) (hlen : len = out * out) :
    (∃ p ∈ sqOffsets size, hitsCell out len row col p (nr * out + nc))
      ↔ inResetSquare row col size nr nc := by
  constructor
  · rintro ⟨⟨dr, dc⟩, hmem, hh⟩
    rw [mem_sqOffsets] at hmem
    obtain ⟨hc1, hc2, hc3, hc4, hc5, hc6⟩ := hh
    have hcolb : ((col : Int) + dc).toNat < out := by omega
    have hrowb : ((row : Int) + dr).toNat < out := by omega
    obtain ⟨hr, hc⟩ := grid_index_inj out _ _ nr nc hcolb hnc hc5
    unfold inResetSquare
    obtain ⟨hm1, hm2, hm3, hm4⟩ := hmem
    constructor
    · omega
    constructor
    · omega
    constructor
    · omega
    · omega
  · intro hsq
    obtain ⟨h1, h2, h3, h4⟩ := hsq
    refine ⟨((nr : Int) - (row : Int), (nc : Int) - (col : Int)), ?_, ?_⟩
    · rw [mem_sqOffsets]
      exact ⟨h1, h2, h3, h4⟩
    · have e1 : ((row : Int) + ((nr : Int) - (row : Int))).toNat = nr := by
        omega
      have e2 : ((col : Int) + ((nc : Int) - (col : Int))).toNat = nc := by
        omega
      refine ⟨by omega, by omega, by omega, by omega, ?_, ?_⟩
      · rw [e1, e2]
      · rw [hlen]
        exact grid_flat_lt out nr nc hnr hnc

theorem reset_local_spec (s : WfcEngine) (row col size : Nat)
    (hlen : s.entropy_map.length = s.matrix.length) :
    ((s.reset_local row col size).output_size = s.output_size ∧
     (s.reset_local row col size).tiles = s.tiles ∧
     (s.reset_local row col size).all_flags = s.all_flags ∧
     (s.reset_local row col size).local_reset_size = s.local_reset_size ∧
     (s.reset_local row col size).local_reset_attempts
        = s.local_reset_attempts ∧
     (s.reset_local row col size).matrix.length = s.matrix.length ∧
     (s.reset_local row col size).entropy_map.length
        = s.entropy_map.length ∧
     (s.reset_local row col size).stack = []) ∧
    (∀ i : Nat,
      (s.reset_local row col size).matrix.getD i 0 =
        if ∃ p ∈ sqOffsets size,
            hitsCell s.output_size s.matrix.length row col p i
        then s.all_flags else s.matrix.getD i 0) ∧
    (∀ i : Nat,
      (s.reset_local row col size).entropy_map.getD i 0 =
        if ∃ p ∈ sqOffsets size,
            hitsCell s.output_size s.matrix.length row col p i
        then s.tiles.length else s.entropy_map.getD i 0) := by
  have hdf : s.reset_local row col size
      = { resetPairFold s row col (sqOffsets size) with stack := [] } := by
    simp only [WfcEngine.reset_local]
    rw [double_fold_eq]
    rfl
  rw [hdf]
  obtain ⟨hf, hm, he⟩ := resetPairFold_spec row col (sqOffsets size) s hlen
  exact ⟨⟨hf.1, hf.2.1, hf.2.2.1, hf.2.2.2.2.1, hf.2.2.2.2.2.1,
    hf.2.2.2.2.2.2.1, hf.2.2.2.2.2.2.2, rfl⟩, hm, he⟩

theorem reset_getD (s : WfcEngine) :
    (∀ i < s.matrix.length, s.reset.matrix.getD i 0 = s.all_flags) ∧
    (∀ i < s.entropy_map.length,
        s.reset.entropy_map.getD i 0 = s.tiles.length) ∧
    s.reset.stack = [] := by
  refine ⟨?_, ?_, rfl⟩
  · intro i hi
    exact getD_map_const s.matrix s.all_flags i hi
  · intro i hi
    exact getD_map_const s.entropy_map s.tiles.length i hi

theorem reset_local_square (t : WfcEngine) (row col size : Nat)
    (hm : t.matrix.length = t.output_size * t.output_size)
    (he : t.entropy_map.length = t.output_size * t.output_size) :
    (t.reset_local row col size).local_reset_attempts
        = t.local_reset_attempts ∧
    (t.reset_local row col size).local_reset_size = t.local_reset_size ∧
    (t.reset_local row col size).stack = [] ∧
    (∀ nr nc : Nat, nr < t.output_size → nc < t.output_size →
      ((t.reset_local row col size).matrix.getD (nr * t.output_size + nc) 0
          = if inResetSquare row col size nr nc then t.all_flags
            else t.matrix.getD (nr * t.output_size + nc) 0) ∧
      ((t.reset_local row col size).entropy_map.getD
            (nr * t.output_size + nc) 0
          = if inResetSquare row col size nr nc then t.tiles.length
            else t.entropy_map.getD (nr * t.output_size + nc) 0)) := by
  obtain ⟨hf, hmm, hee⟩ := reset_local_spec t row col size (he.trans hm.symm)
  refine ⟨hf.2.2.2.2.1, hf.2.2.2.1, hf.2.2.2.2.2.2.2, ?_⟩
  intro nr nc hnr hnc
  constructor
  · rw [hmm (nr * t.output_size + nc),
      if_congr (sq_cond_iff t.output_size t.matrix.length row col size
        nr nc hnr hnc hm) rfl rfl]
  · rw [hee (nr * t.output_size + nc),
      if_congr (sq_cond_iff t.output_size t.matrix.length row col size
        nr nc hnr hnc hm) rfl rfl]

/-- C7: on a contradiction at `(row, col)` the attempt counter is
incremented; if it then exceeds 8 it is reset to 0 and the reset size grows
by 4.  If the (possibly grown) size exceeds the grid side, a full reset is
performed (every cell back to `all_flags` / tile count, frontier cleared);
otherwise every in-bounds cell of the half-open `size × size` square of
offsets `-(size/2) .. size/2` around `(row, col)` is restored to
all-tiles-possible with entropy equal to the tile count, every other cell is
untouched, and the entire propagation frontier is cleared. -/
theorem wfc_C7_contradiction_recovery (s : WfcEngine) (row col : Nat)
    (hm : s.matrix.length = s.output_size * s.output_size)
    (he : s.entropy_map.length = s.output_size * s.output_size) :
    ((s.output_size <
        (if 8 < s.local_reset_attempts + 1 then s.local_reset_size + 4
          else s.local_reset_size)) →
      ((s.handle_contradiction row col).stack = [] ∧
        (∀ i < s.matrix.length,
          (s.handle_contradiction row col).matrix.getD i 0 = s.all_flags) ∧
        (∀ i < s.entropy_map.length,
          (s.handle_contradiction row col).entropy_map.getD i 0
            = s.tiles.length))) ∧
    (¬ (s.output_size <
        (if 8 < s.local_reset_attempts + 1 then s.local_reset_size + 4
          else s.local_reset_size)) →
      ((s.handle_contradiction row col).local_reset_attempts
          = (if 8 < s.local_reset_attempts + 1 then 0
              else s.local_reset_attempts + 1) ∧
        (s.handle_contradiction row col).local_reset_size
          = (if 8 < s.local_reset_attempts + 1 then s.local_reset_size + 4
              else s.local_reset_size) ∧
        (s.handle_contradiction row col).stack = [] ∧
        (∀ nr nc : Nat, nr < s.output_size → nc < s.output_size →
          ((s.handle_contradiction row col).matrix.getD
                (nr * s.output_size + nc) 0
              = if inResetSquare row col
                    (if 8 < s.local_reset_attempts + 1
                      then s.local_reset_size + 4 else s.local_reset_size)
                    nr nc
                then s.all_flags
                else s.matrix.getD (nr * s.output_size + nc) 0) ∧
          ((s.handle_contradiction row col).entropy_map.getD
                (nr * s.output_size + nc) 0
              = if inResetSquare row col
                    (if 8 < s.local_reset_attempts + 1
                      then s.local_reset_size + 4 else s.local_reset_size)
                    nr nc
                then s.tiles.length
                else s.entropy_map.getD (nr * s.output_size + nc) 0)))) := by
  by_cases hA : 8 < s.local_reset_attempts + 1
  · simp only [if_pos hA]
    have hhc : s.handle_contradiction row col
        = (if s.output_size < s.local_reset_size + 4
            then ({ s with local_reset_attempts := 0, local_reset_size := s.local_reset_size + 4 } : WfcEngine).reset
            else ({ s with local_reset_attempts := 0, local_reset_size := s.local_reset_size + 4 } : WfcEngine).reset_local row col (s.local_reset_size + 4)) := by
      simp only [WfcEngine.handle_contradiction]
      rw [if_pos hA]
    rw [hhc]
    by_cases hF : s.output_size < s.local_reset_size + 4
    · rw [if_pos hF]
      refine ⟨fun _ => ?_, fun hcontra => absurd hF hcontra⟩
      obtain ⟨h1, h2, h3⟩ := reset_getD
        ({ s with local_reset_attempts := 0, local_reset_size := s.local_reset_size + 4 } : WfcEngine)
      exact ⟨h3, h1, h2⟩
    · rw [if_neg hF]
      refine ⟨fun hcontra => absurd hcontra hF, fun _ => ?_⟩
      obtain ⟨h1, h2, h3, h4⟩ := reset_local_square
        ({ s with local_reset_attempts := 0, local_reset_size := s.local_reset_size + 4 } : WfcEngine)
        row col (s.local_reset_size + 4) hm he
      exact ⟨h1, h2, h3, h4⟩
  · simp only [if_neg hA]
    have hhc : s.handle_contradiction row col
        = (if s.output_size < s.local_reset_size
            then ({ s with local_reset_attempts := s.local_reset_attempts + 1 } : WfcEngine).reset
            else ({ s with local_reset_attempts := s.local_reset_attempts + 1 } : WfcEngine).reset_local row col s.local_reset_size) := by
      simp only [WfcEngine.handle_contradiction]
      rw [if_neg hA]
    rw [hhc]
    by_cases hF : s.output_size < s.local_reset_size
    · rw [if_pos hF]
      refine ⟨fun _ => ?_, fun hcontra => absurd hF hcontra⟩
      obtain ⟨h1, h2, h3⟩ := reset_getD
        ({ s with local_reset_attempts := s.local_reset_attempts + 1 } : WfcEngine)
      exact ⟨h3, h1, h2⟩
    · rw [if_neg hF]
      refine ⟨fun hcontra => absurd hcontra hF, fun _ => ?_⟩
      obtain ⟨h1, h2, h3, h4⟩ := reset_local_square
        ({ s with local_reset_attempts := s.local_reset_attempts + 1 } : WfcEngine)
        row col s.local_reset_size hm he
      exact ⟨h1, h2, h3, h4⟩

/-- C7 witness: on the 1×1 two-tile engine the grown radius 8 exceeds the
grid side, so the recovery is a full reset. -/
theorem wfc_C7_contradiction_recovery_witness :
    (wfcPair.handle_contradiction 0 0).stack = [] ∧
    (∀ i < wfcPair.matrix.length,
        (wfcPair.handle_contradiction 0 0).matrix.getD i 0
          = wfcPair.all_flags) ∧
    (∀ i < wfcPair.entropy_map.length,
        (wfcPair.handle_contradiction 0 0).entropy_map.getD i 0
          = wfcPair.tiles.length) :=
  (wfc_C7_contradiction_recovery wfcPair 0 0 rfl rfl).1 (by decide)

/-! ### Image rendering (claim C9) -/

theorem foldl_append_eq_flatMap {α β : Type _} (g : α → List β) :
    ∀ (l : List α) (init : List β),
      l.foldl (fun acc x => acc ++ g x) init = init ++ l.flatMap g := by
  intro l
  induction l with
  | nil => intro init; simp
  | cons x xs ih =>
      intro init
      rw [List.foldl_cons, ih, List.flatMap_cons, List.append_assoc]

theorem flatMap4_length {α : Type _} (g : α → List Nat)
    (hg : ∀ x, (g x).length = 4) :
    ∀ l : List α, (l.flatMap g).length = l.length * 4 := by
  intro l
  induction l with
  | nil => simp
  | cons x xs ih =>
      rw [List.flatMap_cons, List.length_append, ih, hg x, List.length_cons]
      ring

theorem flatMap4_getD {α : Type _} (g : α → List Nat)
    (hg : ∀ x, (g x).length = 4) :
    ∀ (l : List α) (i k : Nat), i < l.length → k < 4 →
      ∀ x0 : α, (l.flatMap g).getD (4 * i + k) 0 = (g (l.getD i x0)).getD k 0 := by
  intro l
  induction l with
  | nil => intro i k hi; simp at hi
  | cons x xs ih =>
      intro i k hi hk x0
      rw [List.flatMap_cons]
      cases i with
      | zero =>
          simp only [Nat.mul_zero, Nat.zero_add]
          rw [List.getD_append _ _ _ _ (by rw [hg x]; omega)]
          rfl
      | succ i =>
          have h4 : 4 * (i + 1) + k = (g x).length + (4 * i + k) := by
            rw [hg x]; ring
          rw [h4, List.getD_append_right _ _ _ _ (by omega),
            Nat.add_sub_cancel_left]
          exact ih i k (by simpa using hi) hk x0

theorem displayFold_spec (s : WfcEngine) (mask : Nat)
    (hn : s.tiles.length ≤ 128)
    (hpix : ∀ j < s.tiles.length,
        (colorAt (s.tiles.getD j []) 0 0).r ≤ 255 ∧
        (colorAt (s.tiles.getD j []) 0 0).g ≤ 255 ∧
        (colorAt (s.tiles.getD j []) 0 0).b ≤ 255) :
    ∀ n, n ≤ s.tiles.length →
      ((List.range n).foldl
        (fun (acc : Nat × Nat × Nat × Nat) i =>
          if mask &&& (1 <<< i) != 0 then
            ((acc.1 + (colorAt (s.tiles.getD i []) 0 0).r) % 2 ^ 32,
             (acc.2.1 + (colorAt (s.tiles.getD i []) 0 0).g) % 2 ^ 32,
             (acc.2.2.1 + (colorAt (s.tiles.getD i []) 0 0).b) % 2 ^ 32,
             (acc.2.2.2 + 1) % 2 ^ 32)
          else acc)
        (0, 0, 0, 0))
      = ((((List.range n).filter fun i => mask &&& (1 <<< i) != 0).map
            fun j => (colorAt (s.tiles.getD j []) 0 0).r).sum,
         (((List.range n).filter fun i => mask &&& (1 <<< i) != 0).map
            fun j => (colorAt (s.tiles.getD j []) 0 0).g).sum,
         (((List.range n).filter fun i => mask &&& (1 <<< i) != 0).map
            fun j => (colorAt (s.tiles.getD j []) 0 0).b).sum,
         ((List.range n).filter fun i => mask &&& (1 <<< i) != 0).length) := by
  intro n
  induction n with
  | zero => intro _; simp
  | succ n ih =>
      intro hle
      have hcnt : ((List.range n).filter
          fun i => mask &&& (1 <<< i) != 0).length ≤ n := by
        calc ((List.range n).filter
            fun i => mask &&& (1 <<< i) != 0).length
            ≤ (List.range n).length := List.length_filter_le _ _
          _ = n := List.length_range n
      have hbound : ∀ (f : Nat → Nat), (∀ j < s.tiles.length, f j ≤ 255) →
          (((List.range n).filter
            fun i => mask &&& (1 <<< i) != 0).map f).sum ≤ 255 * n := by
        intro f hf
        have h1 := List.sum_le_card_nsmul
          (((List.range n).filter fun i => mask &&& (1 <<< i) != 0).map f)
          255 ?_
        · calc (((List.range n).filter
              fun i => mask &&& (1 <<< i) != 0).map f).sum
              ≤ (((List.range n).filter
                fun i => mask &&& (1 <<< i) != 0).map f).length • 255 := h1
            _ = (((List.range n).filter
                fun i => mask &&& (1 <<< i) != 0).map f).length * 255 := by
                rw [smul_eq_mul]
            _ ≤ n * 255 := by
                rw [List.length_map]
                exact Nat.mul_le_mul_right 255 hcnt
            _ = 255 * n := by ring
        · intro x hx
          rw [List.mem_map] at hx
          obtain ⟨j, hj, rfl⟩ := hx
          rw [List.mem_filter, List.mem_range] at hj
          exact hf j (by omega)
      rw [List.range_succ, List.foldl_append, List.foldl_cons, List.foldl_nil,
        ih (by omega), List.filter_append]
      by_cases hp : (mask &&& (1 <<< n) != 0) = true
      · rw [if_pos hp]
        have hfilt : List.filter (fun i => mask &&& (1 <<< i) != 0) [n]
            = [n] := by
          simp [List.filter, hp]
        rw [hfilt]
        have hr := hbound (fun j => (colorAt (s.tiles.getD j []) 0 0).r)
          (fun j hj => (hpix j hj).1)
        have hg := hbound (fun j => (colorAt (s.tiles.getD j []) 0 0).g)
          (fun j hj => (hpix j hj).2.1)
        have hb := hbound (fun j => (colorAt (s.tiles.getD j []) 0 0).b)
          (fun j hj => (hpix j hj).2.2)
        have hpn := hpix n (by omega)
        simp only [List.map_append, List.sum_append, List.length_append,
          List.map_cons, List.map_nil, List.sum_cons, List.sum_nil,
          List.length_cons, List.length_nil]
        refine Prod.ext ?_ (Prod.ext ?_ (Prod.ext ?_ ?_)) <;>
          simp only [] <;> rw [Nat.mod_eq_of_lt (by omega)] <;> omega
      · rw [if_neg hp]
        have hfilt : List.filter (fun i => mask &&& (1 <<< i) != 0) [n]
            = [] := by
          simp only [List.filter]
          rw [Bool.not_eq_true] at hp
          rw [hp]
        rw [hfilt]
        simp

theorem get_display_color_spec (s : WfcEngine) (mask : Nat)
    (hn : s.tiles.length ≤ 128)
    (hpix : ∀ j < s.tiles.length,
        (colorAt (s.tiles.getD j []) 0 0).r ≤ 255 ∧
        (colorAt (s.tiles.getD j []) 0 0).g ≤ 255 ∧
        (colorAt (s.tiles.getD j []) 0 0).b ≤ 255) :
    s.get_display_color mask =
      (if ((List.range s.tiles.length).filter
            fun j => mask.testBit j).length = 0
       then ⟨255, 0, 255⟩
       else
        ⟨(((List.range s.tiles.length).filter fun j => mask.testBit j).map
              fun j => (colorAt (s.tiles.getD j []) 0 0).r).sum
            / ((List.range s.tiles.length).filter
              fun j => mask.testBit j).length,
         (((List.range s.tiles.length).filter fun j => mask.testBit j).map
              fun j => (colorAt (s.tiles.getD j []) 0 0).g).sum
            / ((List.range s.tiles.length).filter
              fun j => mask.testBit j).length,
         (((List.range s.tiles.length).filter fun j => mask.testBit j).map
              fun j => (colorAt (s.tiles.getD j []) 0 0).b).sum
            / ((List.range s.tiles.length).filter
              fun j => mask.testBit j).length⟩) := by
  have hfeq : ((List.range s.tiles.length).filter
        fun i => mask &&& (1 <<< i) != 0)
      = ((List.range s.tiles.length).filter fun j => mask.testBit j) :=
    List.filter_congr (fun j _ => and_shift_bne mask j)
  simp only [WfcEngine.get_display_color]
  rw [displayFold_spec s mask hn hpix s.tiles.length (le_refl _), hfeq]
  dsimp only
  by_cases hz : ((List.range s.tiles.length).filter
      fun j => mask.testBit j).length = 0
  · rw [if_neg (by omega), if_pos hz]
  · rw [if_pos (by omega), if_neg hz]
    have hdiv : ∀ f : Nat → Nat, (∀ j < s.tiles.length, f j ≤ 255) →
        ((((List.range s.tiles.length).filter
            fun j => mask.testBit j).map f).sum
          / ((List.range s.tiles.length).filter
            fun j => mask.testBit j).length) % 256
        = (((List.range s.tiles.length).filter
            fun j => mask.testBit j).map f).sum
          / ((List.range s.tiles.length).filter
            fun j => mask.testBit j).length := by
      intro f hf
      have hpos : 0 < ((List.range s.tiles.length).filter
          fun j => mask.testBit j).length := by omega
      have hsum : (((List.range s.tiles.length).filter
            fun j => mask.testBit j).map f).sum
          ≤ ((List.range s.tiles.length).filter
            fun j => mask.testBit j).length * 255 := by
        have h1 := List.sum_le_card_nsmul
          (((List.range s.tiles.length).filter
            fun j => mask.testBit j).map f) 255 ?_
        · simpa [List.length_map, smul_eq_mul] using h1
        · intro x hx
          rw [List.mem_map] at hx
          obtain ⟨j, hj, rfl⟩ := hx
          rw [List.mem_filter, List.mem_range] at hj
          exact hf j hj.1
      refine Nat.mod_eq_of_lt ?_
      rw [Nat.div_lt_iff_lt_mul hpos]
      calc (((List.range s.tiles.length).filter
            fun j => mask.testBit j).map f).sum
          ≤ ((List.range s.tiles.length).filter
            fun j => mask.testBit j).length * 255 := hsum
        _ < 256 * ((List.range s.tiles.length).filter
            fun j => mask.testBit j).length := by omega
    rw [hdiv (fun j => (colorAt (s.tiles.getD j []) 0 0).r)
        (fun j hj => (hpix j hj).1),
      hdiv (fun j => (colorAt (s.tiles.getD j []) 0 0).g)
        (fun j hj => (hpix j hj).2.1),
      hdiv (fun j => (colorAt (s.tiles.getD j []) 0 0).b)
        (fun j hj => (hpix j hj).2.2)]

/-- C9: the rendered buffer is row-major RGBA of length
`output_size² × 4`; each cell's bytes are the (integer) unweighted mean of
the first pixel (`[0][0]`) of every tile still possible in the cell's
domain, magenta `(255, 0, 255)` for an empty domain, and alpha is always
255. -/
theorem wfc_C9_image_data (s : WfcEngine)
    (hm : s.matrix.length = s.output_size * s.output_size)
    (hn : s.tiles.length ≤ 128)
    (hpix : ∀ j < s.tiles.length,
        (colorAt (s.tiles.getD j []) 0 0).r ≤ 255 ∧
        (colorAt (s.tiles.getD j []) 0 0).g ≤ 255 ∧
        (colorAt (s.tiles.getD j []) 0 0).b ≤ 255) :
    (s.get_image_data).length = s.output_size * s.output_size * 4 ∧
    (∀ i < s.matrix.length,
      ((s.get_image_data).getD (4 * i) 0,
       (s.get_image_data).getD (4 * i + 1) 0,
       (s.get_image_data).getD (4 * i + 2) 0,
       (s.get_image_data).getD (4 * i + 3) 0)
        = if ((List.range s.tiles.length).filter
              fun j => (s.matrix.getD i 0).testBit j).length = 0
          then (255, 0, 255, 255)
          else
            ((((List.range s.tiles.length).filter
                  fun j => (s.matrix.getD i 0).testBit j).map
                  fun j => (colorAt (s.tiles.getD j []) 0 0).r).sum
              / ((List.range s.tiles.length).filter
                  fun j => (s.matrix.getD i 0).testBit j).length,
             (((List.range s.tiles.length).filter
                  fun j => (s.matrix.getD i 0).testBit j).map
                  fun j => (colorAt (s.tiles.getD j []) 0 0).g).sum
              / ((List.range s.tiles.length).filter
                  fun j => (s.matrix.getD i 0).testBit j).length,
             (((List.range s.tiles.length).filter
                  fun j => (s.matrix.getD i 0).testBit j).map
                  fun j => (colorAt (s.tiles.getD j []) 0 0).b).sum
              / ((List.range s.tiles.length).filter
                  fun j => (s.matrix.getD i 0).testBit j).length,
             255)) := by
  have hg4 : ∀ mask : Nat,
      ([(s.get_display_color mask).r, (s.get_display_color mask).g,
        (s.get_display_color mask).b, 255] : List Nat).length = 4 :=
    fun _ => rfl
  have himg : s.get_image_data
      = s.matrix.flatMap fun mask =>
          [(s.get_display_color mask).r, (s.get_display_color mask).g,
            (s.get_display_color mask).b, 255] := by
    simp only [WfcEngine.get_image_data]
    rw [foldl_append_eq_flatMap]
    simp
  constructor
  · rw [himg, flatMap4_length _ hg4, hm]
  · intro i hi
    have h0 := flatMap4_getD _ hg4 s.matrix i 0 hi (by omega) 0
    have h1 := flatMap4_getD _ hg4 s.matrix i 1 hi (by omega) 0
    have h2 := flatMap4_getD _ hg4 s.matrix i 2 hi (by omega) 0
    have h3 := flatMap4_getD _ hg4 s.matrix i 3 hi (by omega) 0
    rw [Nat.add_zero] at h0
    rw [himg, h0, h1, h2, h3,
      get_display_color_spec s (s.matrix.getD i 0) hn hpix]
    by_cases hz : ((List.range s.tiles.length).filter
        fun j => (s.matrix.getD i 0).testBit j).length = 0
    · rw [if_pos hz, if_pos hz]
      rfl
    · rw [if_neg hz, if_neg hz]
      rfl

/-- C9 witness: the two-tile 1×1 engine's buffer has length
`1 × 1 × 4 = 4`. -/
theorem wfc_C9_image_data_witness :
    (wfcPair.get_image_data).length
      = wfcPair.output_size * wfcPair.output_size * 4 :=
  (wfc_C9_image_data wfcPair rfl (by decide)
    (by
      intro j hj
      have h2 : wfcPair.tiles.length = 2 := rfl
      rw [h2] at hj
      interval_cases j <;> decide)).1
